
import Mathlib

/-!
Verification of the tr069-cel-mapper fast mapping pipeline.

This file gives a shallow embedding of the Go sources of the repository
(pkg/router/router.go, pkg/router/trie.go, the extractor package,
pkg/transform/transform.go, pkg/pool/pool.go, the MapStore of pkg/types and
the FastMapper orchestrator) and proves the frozen specification claims
about them.

Modelling conventions:
- Go strings are modelled as `List Char` (all inputs of interest are ASCII,
  where Go's byte-wise operations and the character-wise model coincide).
- Go maps are modelled as association lists with overwrite-on-insert
  (`alookup` / `aset`); iteration order is never observable in the modelled
  code paths (only keyed lookups are performed).
- Go `(T, error)` results are `Except GoErr T`; `(T, bool)` is `Option T`.
- Mutation is modelled by explicit state passing.
- `sync.Pool` is modelled as a list of pooled items plus the `New` factory;
  the only facts used about it are which claims rely on: `Get` pops an item
  or calls the factory, `Put` pushes an item.
- Wall-clock time (`time.Since(start)`) is modelled by an explicit
  `elapsed` parameter threaded into `ProcessContext`.
-/

namespace TrMap

/-- Go strings, modelled character-wise. -/
abbrev Str := List Char

/-- Helper to write string literals for the model. -/
def toL (s : String) : Str := s.toList

/-- Go map lookup on an association list (keys are unique via `aset`). -/
def alookup {α β : Type} [DecidableEq α] : List (α × β) → α → Option β
  | [], _ => none
  | (k, v) :: rest, key => if key = k then some v else alookup rest key

/-- Go map insert/overwrite on an association list. -/
def aset {α β : Type} [DecidableEq α] : List (α × β) → α → β → List (α × β)
  | [], k, v => [(k, v)]
  | (k', v') :: rest, k, v =>
    if k = k' then (k, v) :: rest else (k', v') :: aset rest k v

/-! ### Dot-splitting functions

`splitDot` models Go's `strings.Split(path, ".")` (used by `CompilePattern`),
which keeps empty segments, including a leading/trailing one; splitting the
empty string yields one empty segment. `joinDot` models
`strings.Join(parts, ".")`. -/

/-- Prepend characters onto the head segment of a split result. -/
def consHead (x : Str) : List Str → List Str
  | [] => [x]
  | h :: t => (x ++ h) :: t

/-- Model of Go `strings.Split(path, ".")`: every `'.'` starts a new
segment, empty segments included. -/
def splitDot : Str → List Str
  | [] => [[]]
  | c :: rest => if c = '.' then [] :: splitDot rest else consHead [c] (splitDot rest)

/-- Model of Go `strings.Join(parts, ".")`. -/
def joinDot : List Str → Str
  | [] => []
  | [s] => s
  | s :: rest => s ++ '.' :: joinDot rest

/-! ### The two loop-based splitting routines of the repository

`splitPathFast` in pkg/router/router.go appends a segment at every dot
(keeping empty middle segments) and appends the final residual only when it
is nonempty.  The identically named function in the extractor package skips
empty segments everywhere (`if i > start`).  Both are modelled as
accumulator recursions over the scanned characters, mirroring the loops. -/

/-- Router `splitPathFast` loop: `cur` holds the characters of the current
segment in reverse (the scanned `path[start:i]`). -/
def splitPathFastAux (cur : Str) : Str → List Str
  | [] => if cur = [] then [] else [cur.reverse]
  | c :: rest =>
    if c = '.' then cur.reverse :: splitPathFastAux [] rest
    else splitPathFastAux (c :: cur) rest

/-- Model of `splitPathFast` from pkg/router/router.go: split on `'.'`,
keeping empty middle segments, dropping an empty final residual. -/
def splitPathFast (path : Str) : List Str := splitPathFastAux [] path

/-- Extractor-package `splitPathFast` loop: segments are only emitted when
nonempty (`if i > start` in the source). -/
def splitPathSkipAux (cur : Str) : Str → List Str
  | [] => if cur = [] then [] else [cur.reverse]
  | c :: rest =>
    if c = '.' then
      if cur = [] then splitPathSkipAux [] rest
      else cur.reverse :: splitPathSkipAux [] rest
    else splitPathSkipAux (c :: cur) rest

/-- Model of `splitPathFast` from the extractor package: split on `'.'`,
dropping every empty segment. -/
def splitPathSkipEmpty (path : Str) : List Str := splitPathSkipAux [] path

/-- Drop the final segment of a split result when it is empty (the router
split keeps all other empties). -/
def stripLastEmpty : List Str → List Str
  | [] => []
  | [x] => if x = [] then [] else [x]
  | x :: y :: t => x :: stripLastEmpty (y :: t)

/-! ### Transform engine (pkg/transform/transform.go)

Go's `any` results are modelled by `Value`; `error` by `GoErr` (a message
string — the modelled code never inspects error contents).  The Go standard
library helpers used by the transforms (`strings.TrimSpace`,
`strconv.ParseInt`, `strconv.ParseFloat`, `strconv.ParseBool`) are modelled
below; `ParseFloat` is modelled for plain decimal literals only (no
exponent/hex/inf forms — none of the verified properties exercise them) with
exact rational values. -/

/-- Result type of a transform (`any` in Go). -/
inductive Value where
  | vStr (s : Str)
  | vBool (b : Bool)
  | vInt (n : Int)
  | vFloat (q : Rat)
deriving DecidableEq

/-- Go `error`, as a message string. -/
abbrev GoErr := Str

/-- A registered transform function. -/
abbrev Transformer := Str → Except GoErr Value

/-- ASCII whitespace recognised by the `strings.TrimSpace` model. -/
def wsChar (c : Char) : Bool := c = ' ' || c = '\t' || c = '\n' || c = '\r'

/-- Model of Go `strings.TrimSpace` (ASCII whitespace). -/
def goTrimSpace (l : Str) : Str :=
  ((l.dropWhile wsChar).reverse.dropWhile wsChar).reverse

/-- Model of Go `strings.ToLower` (ASCII). -/
def goToLower (l : Str) : Str := l.map Char.toLower

/-- Model of Go `strings.ToUpper` (ASCII). -/
def goToUpper (l : Str) : Str := l.map Char.toUpper

/-- Lower-case hex digit test used by `MacNormalize`. -/
def hexDigit (c : Char) : Bool :=
  ('0' ≤ c && c ≤ '9') || ('a' ≤ c && c ≤ 'f')

/-- Pairs of consecutive characters (the `i += 2` loop of `MacNormalize`). -/
def chunks2 : Str → List Str
  | a :: b :: rest => [a, b] :: chunks2 rest
  | [a] => [[a]]
  | [] => []

/-- Join segments with `':'` (the colon-reinserting loop of `MacNormalize`). -/
def joinColon : List Str → Str
  | [] => []
  | [s] => s
  | s :: rest => s ++ ':' :: joinColon rest

/-- `MacNormalize`: lower-case, strip `:`/`-`/`.`, validate 12 hex digits,
re-insert colons; returns the input unchanged when validation fails. -/
def MacNormalize (value : Str) : Except GoErr Value :=
  let mac := (goToLower value).filter (fun c => !(c = ':' || c = '-' || c = '.'))
  if mac.length ≠ 12 then .ok (.vStr value)
  else if !(mac.all hexDigit) then .ok (.vStr value)
  else .ok (.vStr (joinColon (chunks2 mac)))

/-- `IPValidate`: both branches of the source return the trimmed input with a
nil error, so the `net.ParseIP` call is not observable and is not modelled. -/
def IPValidate (value : Str) : Except GoErr Value :=
  .ok (.vStr (goTrimSpace value))

/-- Model of Go `strconv.ParseBool`. -/
def goParseBool (l : Str) : Except GoErr Bool :=
  if l = toL "1" || l = toL "t" || l = toL "T" || l = toL "TRUE" ||
      l = toL "true" || l = toL "True" then .ok true
  else if l = toL "0" || l = toL "f" || l = toL "F" || l = toL "FALSE" ||
      l = toL "false" || l = toL "False" then .ok false
  else .error (toL "invalid syntax")

/-- `ToBool`: case-insensitive keyword sets, then `strconv.ParseBool`. -/
def ToBool (value : Str) : Except GoErr Value :=
  let v := goToLower (goTrimSpace value)
  if v = toL "true" || v = toL "1" || v = toL "yes" || v = toL "on" ||
      v = toL "enabled" then .ok (.vBool true)
  else if v = toL "false" || v = toL "0" || v = toL "no" || v = toL "off" ||
      v = toL "disabled" then .ok (.vBool false)
  else (goParseBool v).map Value.vBool

/-- Decimal digit test. -/
def isDigit (c : Char) : Bool := '0' ≤ c && c ≤ '9'

/-- Numeric value of a digit string (0 for the empty string). -/
def digitsVal (l : Str) : Nat :=
  l.foldl (fun acc c => acc * 10 + (c.toNat - '0'.toNat)) 0

/-- Model of Go `strconv.ParseInt(s, 10, 64)`: optional sign, decimal
digits, 64-bit range check. -/
def goParseInt (l : Str) : Except GoErr Int :=
  let signDigits : Bool × Str :=
    match l with
    | '+' :: rest => (false, rest)
    | '-' :: rest => (true, rest)
    | rest => (false, rest)
  let neg := signDigits.1
  let digits := signDigits.2
  if digits = [] || !(digits.all isDigit) then .error (toL "invalid syntax")
  else
    let v : Int := if neg then -(digitsVal digits : Int) else (digitsVal digits : Int)
    if v < -(2 ^ 63) || v > 2 ^ 63 - 1 then .error (toL "value out of range")
    else .ok v

/-- Model of Go `strconv.ParseFloat(s, 64)` restricted to plain decimal
literals (optional sign, digits, at most one `'.'`), with exact rational
values. -/
def goParseFloatDec (l : Str) : Option Rat :=
  let signRest : Bool × Str :=
    match l with
    | '+' :: r => (false, r)
    | '-' :: r => (true, r)
    | r => (false, r)
  let neg := signRest.1
  let r := signRest.2
  let ip := r.takeWhile (fun c => !(c = '.'))
  let valOf : Rat → Rat := fun q => if neg then -q else q
  match r.drop ip.length with
  | [] =>
    if ip = [] || !(ip.all isDigit) then none
    else some (valOf (digitsVal ip : Rat))
  | '.' :: fp =>
    if fp.contains '.' then none
    else if ip = [] && fp = [] then none
    else if !(ip.all isDigit) || !(fp.all isDigit) then none
    else some (valOf ((digitsVal ip : Rat) + (digitsVal fp : Rat) / (10 : Rat) ^ fp.length))
  | _ => none

/-- Go `int64(f)` truncates toward zero. -/
def truncToInt (q : Rat) : Int := if 0 ≤ q then ⌊q⌋ else ⌈q⌉

/-- `ToInt`: trim, empty → 0, strip `','`, truncate via float parse when a
`'.'` is present, else base-10 integer parse. -/
def ToInt (value : Str) : Except GoErr Value :=
  let v := goTrimSpace value
  if v = [] then .ok (.vInt 0)
  else
    let v := v.filter (fun c => !(c = ','))
    if v.contains '.' then
      match goParseFloatDec v with
      | some f => .ok (.vInt (truncToInt f))
      | none => (goParseInt v).map Value.vInt
    else (goParseInt v).map Value.vInt

/-- `ToFloat`: trim, empty → 0, strip `','`, optional trailing `'%'`. -/
def ToFloat (value : Str) : Except GoErr Value :=
  let v := goTrimSpace value
  if v = [] then .ok (.vFloat 0)
  else
    let v := v.filter (fun c => !(c = ','))
    if v.getLast? = some '%' then
      match goParseFloatDec v.dropLast with
      | some f => .ok (.vFloat f)
      | none =>
        match goParseFloatDec v with
        | some f => .ok (.vFloat f)
        | none => .error (toL "invalid syntax")
    else
      match goParseFloatDec v with
      | some f => .ok (.vFloat f)
      | none => .error (toL "invalid syntax")

/-- `ToLower` transform. -/
def ToLower (value : Str) : Except GoErr Value := .ok (.vStr (goToLower value))

/-- `ToUpper` transform. -/
def ToUpper (value : Str) : Except GoErr Value := .ok (.vStr (goToUpper value))

/-- `Trim` transform. -/
def Trim (value : Str) : Except GoErr Value := .ok (.vStr (goTrimSpace value))

/-- `StripPercent` transform. -/
def StripPercent (value : Str) : Except GoErr Value :=
  if value.getLast? = some '%' then .ok (.vStr value.dropLast)
  else .ok (.vStr value)

/-- The seeded global `transformers` map.  `Register` extends it; theorems
about the memoizing wrapper are stated over an arbitrary registry to cover
post-registration states. -/
def transformers : Str → Option Transformer := fun name =>
  if name = toL "mac_normalize" then some MacNormalize
  else if name = toL "ip_validate" then some IPValidate
  else if name = toL "bool" then some ToBool
  else if name = toL "int" then some ToInt
  else if name = toL "float" then some ToFloat
  else if name = toL "lower" then some ToLower
  else if name = toL "upper" then some ToUpper
  else if name = toL "trim" then some Trim
  else if name = toL "percent_strip" then some StripPercent
  else none

/-- `Register(name, fn)`: overwrite-insert into the registry. -/
def Register (reg : Str → Option Transformer) (name : Str) (fn : Transformer) :
    Str → Option Transformer :=
  fun n => if n = name then some fn else reg n

/-- `Apply(name, value)`: unregistered names pass the value through. -/
def Apply (reg : Str → Option Transformer) (name value : Str) : Except GoErr Value :=
  match reg name with
  | none => .ok (.vStr value)
  | some fn => fn value

/-- The `FastTransform` results cache (`sync.Map` keyed by
`name + ":" + value`). -/
abbrev TCache := List (Str × Value)

/-- `FastTransform.Transform`: cache lookup on `name + ":" + value`, falling
back to `Apply` and caching successful outcomes. -/
def FastTransform.Transform (reg : Str → Option Transformer) (cache : TCache)
    (name value : Str) : Except GoErr Value × TCache :=
  let cacheKey := name ++ ':' :: value
  match alookup cache cacheKey with
  | some cached => (.ok cached, cache)
  | none =>
    match Apply reg name value with
    | .ok result => (.ok result, aset cache cacheKey result)
    | .error e => (.error e, cache)

/-! ### Router (pkg/router/router.go and trie.go)

`Pattern.Prefix` is rendered as `pfx` in the model.  `WildcardPos` is an
`Option` because the source distinguishes a nil slice (non-wildcard
patterns) from a non-nil one (`AddPattern` tests `p.WildcardPos == nil`). -/

/-- Compiled routing pattern (`router.Pattern`). -/
structure Pattern where
  id : Str
  originalPath : Str
  pfx : Str
  suffix : Str
  contains : List Str
  parts : List Str
  minParts : Nat
  maxParts : Nat
  wildcardPos : Option (List Nat)
  entity : Str
  field : Str
  priority : Nat
deriving DecidableEq

/-- Model of `bytesContains` (substring search). -/
def bytesContainsB : Str → Str → Bool
  | [], sub => sub.isEmpty
  | c :: t, sub => sub.isPrefixOf (c :: t) || bytesContainsB t sub

/-- Model of `countDots`. -/
def countDots (l : Str) : Nat := l.count '.'

/-- `FastRouter.matchParts`: the path must split (router split) into exactly
the pattern's segments, `"*"` matching any single segment. -/
def matchParts (path : Str) (p : Pattern) : Bool :=
  let parts := splitPathFast path
  (parts.length == p.parts.length) &&
    (p.parts.zip parts).all (fun ep => ep.1 == toL "*" || ep.1 == ep.2)

/-- `FastRouter.matchPatternFast`: prefix, suffix and substring guards, then
segment verification (or a bare segment-count bound). -/
def matchPatternFast (path : Str) (p : Pattern) : Bool :=
  if p.pfx ≠ [] ∧ p.pfx.isPrefixOf path = false then false
  else if p.suffix ≠ [] ∧ p.suffix.isSuffixOf path = false then false
  else if ¬ (∀ s ∈ p.contains, bytesContainsB path s = true) then false
  else if p.parts ≠ [] then matchParts path p
  else if p.minParts ≠ 0 ∨ p.maxParts ≠ 0 then
    if p.minParts ≠ 0 ∧ countDots path + 1 < p.minParts then false
    else if p.maxParts ≠ 0 ∧ p.maxParts < countDots path + 1 then false
    else true
  else true

/-- `CompilePattern`: no-`'*'` inputs become exact patterns (prefix = whole
text, nil wildcard positions); otherwise segments are recorded with fixed
arity and the literal prefix/suffix around the outermost wildcards. -/
def CompilePattern (path : Str) : Pattern :=
  if ¬ (path.contains '*' = true) then
    { id := [], originalPath := path, pfx := path, suffix := [], contains := [],
      parts := [], minParts := 0, maxParts := 0, wildcardPos := none,
      entity := [], field := [], priority := 0 }
  else
    let parts := splitDot path
    let wpos := List.findIdxs (fun s => s == toL "*") parts
    let pfx := match wpos.head? with
      | some i => if 0 < i then joinDot (parts.take i) ++ ['.'] else []
      | none => []
    let sfx := match wpos.getLast? with
      | some i => if i + 1 < parts.length then '.' :: joinDot (parts.drop (i + 1)) else []
      | none => []
    { id := [], originalPath := path, pfx := pfx, suffix := sfx, contains := [],
      parts := parts, minParts := parts.length, maxParts := parts.length,
      wildcardPos := some wpos, entity := [], field := [], priority := 0 }

/-- Trie node (`router.TrieNode`), children keyed by character. -/
inductive TrieNode where
  | mk (children : List (Char × TrieNode)) (patterns : List Pattern) (isEnd : Bool)

/-- A fresh trie node (`NewTrie` root and newly created children). -/
def TrieNode.emptyNode : TrieNode := .mk [] [] false

/-- `Trie.Insert`: walk/create nodes along the prefix, then mark the end
node and append the pattern there. -/
def TrieNode.insertGo : Str → Pattern → TrieNode → TrieNode
  | [], p, .mk ch ps _ => .mk ch (ps ++ [p]) true
  | c :: rest, p, .mk ch ps e =>
    let child := (alookup ch c).getD TrieNode.emptyNode
    .mk (aset ch c (TrieNode.insertGo rest p child)) ps e

/-- `Trie.Search`: walk the path, collecting patterns at every terminal node
passed; on a missing child the loop breaks and the post-loop check re-adds
the current node's patterns (a faithful duplicate). -/
def TrieNode.searchGo : TrieNode → Str → List Pattern
  | .mk _ ps e, [] => if e then ps else []
  | .mk ch ps e, c :: rest =>
    (if e then ps else []) ++
      match alookup ch c with
      | none => if e then ps else []
      | some child => TrieNode.searchGo child rest

/-- Router state (`router.FastRouter`). -/
structure FastRouter where
  exactMatches : List (Str × Pattern)
  prefixTree : TrieNode
  suffixIndex : List (Str × List Pattern)
  patterns : List Pattern

/-- `router.New()`. -/
def FastRouter.New : FastRouter := ⟨[], TrieNode.emptyNode, [], []⟩

/-- `FastRouter.AddPattern`: exact patterns go only to the exact table; all
others join the fallback list, plus the trie (when a prefix and wildcards
exist) and the suffix index (when a suffix exists). -/
def FastRouter.AddPattern (r : FastRouter) (p : Pattern) : FastRouter :=
  if p.pfx ≠ [] ∧ p.wildcardPos = none then
    { r with exactMatches := aset r.exactMatches p.originalPath p }
  else
    let r1 := if p.pfx ≠ [] ∧ (p.wildcardPos.getD []).length ≠ 0 then
        { r with prefixTree := TrieNode.insertGo p.pfx p r.prefixTree }
      else r
    let newEntry := (alookup r1.suffixIndex p.suffix).getD [] ++ [p]
    let r2 := if p.suffix ≠ [] then
        { r1 with suffixIndex := aset r1.suffixIndex p.suffix newEntry }
      else r1
    { r2 with patterns := r2.patterns ++ [p] }

/-- Model of `strings.LastIndexByte(path, '.')` (`none` for Go's `-1`). -/
def lastIndexDot : Str → Option Nat
  | [] => none
  | c :: rest =>
    match lastIndexDot rest with
    | some i => some (i + 1)
    | none => if c = '.' then some 0 else none

/-- `FastRouter.Route`: exact table, then trie candidates, then suffix-index
candidates (for a last dot at index > 0), then the fallback scan; the first
candidate verified by `matchPatternFast` wins. -/
def FastRouter.Route (r : FastRouter) (path : Str) : Option Pattern :=
  match alookup r.exactMatches path with
  | some p => some p
  | none =>
    match (TrieNode.searchGo r.prefixTree path).find? (fun p => matchPatternFast path p) with
    | some p => some p
    | none =>
      let suffCands :=
        match lastIndexDot path with
        | some i => if 0 < i then (alookup r.suffixIndex (path.drop i)).getD [] else []
        | none => []
      match suffCands.find? (fun p => matchPatternFast path p) with
      | some p => some p
      | none => r.patterns.find? (fun p => matchPatternFast path p)

/-! ### Key extractors (extractor package)

`splitPathCached` memoizes `splitPathFast` per path; memoization is not
observable in the value model, so `Extract` uses the split directly. -/

/-- Compiled key extractors.  `IndexExtractor.Prefix` is rendered `pfx`. -/
inductive KeyExtractor where
  | index (position : Int) (pfx : Str)
  | value
  | composite (parts : List KeyExtractor) (sep : Str)
  | static (v : Str)
  | lastPart (count : Int)

/-- Join with an arbitrary separator (the `CompositeExtractor` builder
loop; a separator is only written between operands). -/
def joinWith (sep : Str) : List Str → Str
  | [] => []
  | [s] => s
  | s :: rest => s ++ sep ++ joinWith sep rest

/-- Offset (from the end) of the `cnt`-th dot, scanning a reversed path
(`LastPartExtractor`'s backwards loop). -/
def findDotRev (cnt : Nat) : Str → Option Nat
  | [] => none
  | c :: rest =>
    if c = '.' then
      if cnt ≤ 1 then some 0
      else (findDotRev (cnt - 1) rest).map (· + 1)
    else (findDotRev cnt rest).map (· + 1)

mutual

/-- `Extract` for each extractor shape (dispatch on the
`KeyExtractor` interface). -/
def KeyExtractor.extract : KeyExtractor → Str → Str → Str
  | .index pos pfx, path, _ =>
    let parts := splitPathSkipEmpty path
    if pos < 0 ∨ (parts.length : Int) ≤ pos then []
    else
      let seg := parts.getD pos.toNat []
      if pfx ≠ [] then pfx ++ seg else seg
  | .value, _, v => v
  | .static s, _, _ => s
  | .lastPart cnt, path, _ =>
    if cnt ≤ 0 then path
    else
      match (findDotRev cnt.toNat path.reverse).map (fun off => path.length - 1 - off) with
      | none => path
      | some i => if i + 1 < path.length then path.drop (i + 1) else path
  | .composite parts sep, path, v =>
    if parts.isEmpty then []
    else joinWith sep (KeyExtractor.extractEach parts path v)

/-- Sub-extractor results of a `CompositeExtractor` (its builder loop). -/
def KeyExtractor.extractEach : List KeyExtractor → Str → Str → List Str
  | [], _, _ => []
  | e :: rest, path, v =>
    KeyExtractor.extract e path v :: KeyExtractor.extractEach rest path v

end

/-! ### Entities, registry, pool, store

Entities are arbitrary mutable records manipulated through reflection in the
source; they are modelled as partial field maps (a zeroed field is simply
absent, so the reflective `resetObject` — which zeroes every settable
field — becomes the empty map). -/

/-- An entity instance: field name → value. -/
abbrev Entity := List (Str × Value)

/-- `registry.TypeInfo`: a factory and the reflection-built setters. -/
structure TypeInfo where
  factory : Unit → Entity
  setters : List (Str × (Entity → Value → Except GoErr Entity))

/-- `registry.Registry` (name → TypeInfo). -/
abbrev Registry := List (Str × TypeInfo)

/-- One `sync.Pool` reservoir: pooled items plus the `New` factory.
`sync.Pool` may drop items at any time; the claims proved here only rely on
`Get` returning a pooled item or a fresh `New()` result, which the list
model realises deterministically. -/
structure PoolEntry where
  items : List Entity
  newF : Unit → Entity

/-- `pool.ObjectPool` (type name → reservoir). -/
abbrev ObjectPool := List (Str × PoolEntry)

/-- `ObjectPool.Register`: install a reservoir whose `New` is the factory. -/
def ObjectPool.Register (p : ObjectPool) (typeName : Str) (factory : Unit → Entity) :
    ObjectPool :=
  aset p typeName { items := [], newF := factory }

/-- `ObjectPool.Get`: `(nil, false)` for unknown types; otherwise
`sync.Pool.Get` (a pooled item, or `New()` when the reservoir is empty). -/
def ObjectPool.Get (p : ObjectPool) (typeName : Str) : Option Entity × ObjectPool :=
  match alookup p typeName with
  | none => (none, p)
  | some entry =>
    match entry.items with
    | [] => (some (entry.newF ()), p)
    | x :: rest => (some x, aset p typeName { entry with items := rest })

/-- `resetObject`: every settable field zeroed (empty field map). -/
def resetObject (_ : Entity) : Entity := []

/-- `ObjectPool.Put`: reset the object and return it to the reservoir
(no-op for unknown types). -/
def ObjectPool.Put (p : ObjectPool) (typeName : Str) (obj : Entity) : ObjectPool :=
  match alookup p typeName with
  | none => p
  | some entry => aset p typeName { entry with items := resetObject obj :: entry.items }

/-- `types.MapStore`: entity type → key → entity. -/
abbrev MapStore := List (Str × List (Str × Entity))

/-- `MapStore.Upsert`: return the existing entity, or install the factory's
result (creating the per-type group if needed). -/
def MapStore.Upsert (s : MapStore) (target key : Str) (factory : Unit → Entity) :
    Entity × MapStore :=
  match alookup s target with
  | some group =>
    match alookup group key with
    | some obj => (obj, s)
    | none =>
      let obj := factory ()
      (obj, aset s target (aset group key obj))
  | none =>
    let obj := factory ()
    (obj, aset s target (aset [] key obj))

/-- `MapStore.Get`. -/
def MapStore.Get (s : MapStore) (target key : Str) : Option Entity :=
  match alookup s target with
  | none => none
  | some group => alookup group key

/-- `MapStore.GetAll` (snapshot of one type's entities). -/
def MapStore.GetAll (s : MapStore) (target : Str) : List (Str × Entity) :=
  (alookup s target).getD []

/-- In-place mutation of a stored entity (the Go setter writes through the
shared pointer): overwrite the entry at `(target, key)`. -/
def MapStore.setEntity (s : MapStore) (target key : Str) (obj : Entity) : MapStore :=
  aset s target (aset ((alookup s target).getD []) key obj)

/-! ### FastMapper orchestrator (pkg/mapper fast path)

The error handler is modelled as an error recorder (`errors` list); the
statistics object is `Option`al, mirroring `WithFastStats`.  Counter fields
are `Nat` (the source uses saturating-free `int64` adds of small values). -/

/-- `mapper.FastStats`. -/
structure FastStats where
  processedLines : Nat
  matchedRules : Nat
  failedRules : Nat
  cacheHits : Nat
  cacheMisses : Nat
  allocCount : Nat
  reuseCount : Nat
  processingNanos : Nat
deriving DecidableEq

/-- Zeroed statistics. -/
def FastStats.zero : FastStats := ⟨0, 0, 0, 0, 0, 0, 0, 0⟩

/-- `mapper.FastRule`. -/
structure FastRule where
  id : Str
  pattern : Pattern
  entity : Str
  field : Str
  transform : Str
  extractor : KeyExtractor

/-- `mapper.FastMapper` state. -/
structure FastMapper where
  router : FastRouter
  rules : List (Str × FastRule)
  registry : Registry
  store : MapStore
  objectPool : ObjectPool
  transformer : TCache
  stats : Option FastStats
  errors : List GoErr

/-- `NewFast`: fresh state; every registry type gets a pool reservoir whose
factory is the registry factory. -/
def FastMapper.NewFast (reg : Registry) (withStats : Bool) : FastMapper :=
  { router := FastRouter.New
    rules := []
    registry := reg
    store := []
    objectPool := reg.foldl (fun p nt => ObjectPool.Register p nt.1 nt.2.factory) []
    transformer := []
    stats := if withStats then some FastStats.zero else none
    errors := [] }

/-- `FastMapper.AddRule`: stamp the rule id onto the pattern, register it
with the router and record the rule. -/
def FastMapper.AddRule (m : FastMapper) (rule : FastRule) : FastMapper :=
  let p := { rule.pattern with id := rule.id }
  { m with router := m.router.AddPattern p
           rules := aset m.rules rule.id { rule with pattern := p } }

/-- The object-acquisition block of `ProcessContext`: pool first (counting a
reuse), then the registry factory (counting an allocation); `none` when the
entity type is unknown to both (the registry error return). -/
def FastMapper.acquire (m : FastMapper) (ent : Str) : Option (Entity × FastMapper) :=
  match ObjectPool.Get m.objectPool ent with
  | (some obj, pool') =>
    some (obj, { m with objectPool := pool'
                        stats := m.stats.map fun s =>
                          { s with reuseCount := s.reuseCount + 1 } })
  | (none, _) =>
    match alookup m.registry ent with
    | none => none
    | some info =>
      some (info.factory (), { m with stats := m.stats.map fun s =>
        { s with allocCount := s.allocCount + 1 } })

/-- The setter block of `ProcessContext`: look up the field's setter (absent
fields are skipped silently); a setter error is reported to the handler and
counted as failed; on success the mutation is visible in the store. -/
def FastMapper.applySetter (m : FastMapper) (rule : FastRule) (key : Str)
    (obj : Entity) (finalValue : Value) : FastMapper :=
  match alookup m.registry rule.entity with
  | none => m
  | some info =>
    match alookup info.setters rule.field with
    | none => m
    | some setter =>
      match setter obj finalValue with
      | .ok newObj => { m with store := m.store.setEntity rule.entity key newObj }
      | .error e =>
        { m with stats := m.stats.map (fun s => { s with failedRules := s.failedRules + 1 })
                 errors := m.errors ++ [toL "setter failed: " ++ e] }

/-- The matched-path body of `ProcessContext` (everything between the route
hit and the deferred statistics update).  Go's pointer test
`existing != obj` holds exactly when the key was already present, since the
freshly acquired candidate is never already stored. -/
def FastMapper.processMatched (m : FastMapper) (pat : Pattern) (path value : Str) :
    Except GoErr Unit × FastMapper :=
  match alookup m.rules pat.id with
  | none => (.error (toL "rule not found: " ++ pat.id), m)
  | some rule =>
    let key := rule.extractor.extract path value
    match FastMapper.acquire m rule.entity with
    | none => (.error (toL "type not registered: " ++ rule.entity), m)
    | some (obj, m1) =>
      let existed := (m1.store.Get rule.entity key).isSome
      let upres := m1.store.Upsert rule.entity key (fun _ => obj)
      let m2 := { m1 with store := upres.2 }
      let objm := if existed then
          (upres.1, { m2 with objectPool := m2.objectPool.Put rule.entity obj })
        else (obj, m2)
      let obj' := objm.1
      let m3 := objm.2
      if rule.transform = [] then
        (.ok (), FastMapper.applySetter m3 rule key obj' (.vStr value))
      else
        let tr := FastTransform.Transform transformers m3.transformer rule.transform value
        let m4 := { m3 with transformer := tr.2 }
        match tr.1 with
        | .error e =>
          (.ok (), { m4 with
            stats := m4.stats.map (fun s => { s with failedRules := s.failedRules + 1 })
            errors := m4.errors ++ [toL "transform failed: " ++ e] })
        | .ok tv => (.ok (), FastMapper.applySetter m4 rule key obj' tv)

/-- `FastMapper.ProcessContext` with `context.Background()` (never
cancelled): a route miss only counts a cache miss; a route hit counts a
match up front and — via the deferred closure — a processed line and the
elapsed nanoseconds on every exit of the matched body. -/
def FastMapper.ProcessContext (m : FastMapper) (path value : Str) (elapsed : Nat) :
    Except GoErr Unit × FastMapper :=
  match m.router.Route path with
  | none =>
    (.ok (), { m with stats := m.stats.map fun s =>
      { s with cacheMisses := s.cacheMisses + 1 } })
  | some pat =>
    let m0 := { m with stats := m.stats.map fun s =>
      { s with matchedRules := s.matchedRules + 1 } }
    let res := FastMapper.processMatched m0 pat path value
    (res.1, { res.2 with stats := res.2.stats.map fun s =>
      { s with processedLines := s.processedLines + 1
               processingNanos := s.processingNanos + elapsed } })

/-! ### Claim-side specification functions and concrete states

The `cond`/`Claim` definitions below are written from the specification's
words (not from the source) and are compared against the embedded code;
everything else instantiates the embedded code at concrete inputs for
witnesses and counterexamples. -/

/-- Claim C1, spec side: the path splits on `'.'` (Go `strings.Split`
semantics) into exactly 3 segments, the first `"A"`, the third `"C"`. -/
def condAC (path : Str) : Bool :=
  match splitDot path with
  | [a, _, c] => a == toL "A" && c == toL "C"
  | _ => false

/-- The compiled `A.*.C` pattern of claim C1. -/
def patternAC : Pattern := CompilePattern (toL "A.*.C")

/-- Router populated with the compiled `A.*.C` pattern (claim C1). -/
def routerAC : FastRouter := FastRouter.AddPattern FastRouter.New patternAC

/-- The trie of `routerAC`. -/
def trieAC : TrieNode := TrieNode.insertGo (toL "A.") patternAC TrieNode.emptyNode

/-- Claim C2: the pattern compiled from the empty text (no `'*'`). -/
def patEmptyText : Pattern := CompilePattern []

/-- Claim C2: router holding only the empty-text pattern. -/
def routerEmptyText : FastRouter := FastRouter.AddPattern FastRouter.New patEmptyText

/-- Claim C2: wildcard `A.*.C` registered before exact `A.X.C`. -/
def routerExactDemo : FastRouter :=
  FastRouter.AddPattern (FastRouter.AddPattern FastRouter.New (CompilePattern (toL "A.*.C")))
    (CompilePattern (toL "A.X.C"))

/-- Claim C5, spec side: the claim's reading of `path[N]` — the Nth element
of the path split on `'.'` counting empty segments, empty when out of
range, with the literal prefix prepended to an in-range result. -/
def c5ClaimSegGet (pos : Int) (pfx path : Str) : Str :=
  if 0 ≤ pos ∧ pos.toNat < (splitDot path).length
  then pfx ++ (splitDot path).getD pos.toNat []
  else []

/-- A string-field setter built by the registry's reflection for a string
field (`MACAddress`): a direct type match stores the value. -/
def hostSetterMAC : Entity → Value → Except GoErr Entity :=
  fun e v => .ok (aset e (toL "MACAddress") v)

/-- A strict integer-field setter (`Active`), used to exercise failures. -/
def hostSetterActive : Entity → Value → Except GoErr Entity :=
  fun e v =>
    match v with
    | .vInt n => .ok (aset e (toL "Active") (.vInt n))
    | _ => .error (toL "type mismatch")

/-- Registered `host` type of the C3/C8 scenarios. -/
def hostInfo : TypeInfo :=
  { factory := fun _ => []
    setters := [(toL "MACAddress", hostSetterMAC), (toL "Active", hostSetterActive)] }

/-- Registry holding the `host` type. -/
def registryHost : Registry := [(toL "host", hostInfo)]

/-- The rule of claim C3: `Device.Hosts.Host.*.PhysAddress` → `host`
`.MACAddress` via `mac_normalize`, key `host:` + path segment 3. -/
def ruleHost : FastRule :=
  { id := toL "host_mac"
    pattern := CompilePattern (toL "Device.Hosts.Host.*.PhysAddress")
    entity := toL "host"
    field := toL "MACAddress"
    transform := toL "mac_normalize"
    extractor := .index 3 (toL "host:") }

/-- Mapper of claim C3 (stats enabled, one rule). -/
def mapperC3 : FastMapper := (FastMapper.NewFast registryHost true).AddRule ruleHost

/-- The C3 `Process` invocation. -/
def procC3 : Except GoErr Unit × FastMapper :=
  FastMapper.ProcessContext mapperC3 (toL "Device.Hosts.Host.1.PhysAddress")
    (toL "11-22-33-44-55-66") 0

/-- A mapper with no rules (stats enabled). -/
def mEmpty : FastMapper := FastMapper.NewFast [] true

/-- The rule of the C8 witness: transform `int` (which rejects `"abc"`). -/
def ruleActive : FastRule :=
  { id := toL "host_active"
    pattern := CompilePattern (toL "Device.Hosts.Host.*.Active")
    entity := toL "host"
    field := toL "Active"
    transform := toL "int"
    extractor := .index 3 (toL "host:") }

/-- Mapper of the C8 witness. -/
def mapperC8 : FastMapper := (FastMapper.NewFast registryHost true).AddRule ruleActive

/-- The pattern stamped by `AddRule` in `mapperC8`. -/
def patC8 : Pattern := { CompilePattern (toL "Device.Hosts.Host.*.Active") with id := toL "host_active" }

/-- The stamped rule stored in `mapperC8`. -/
def ruleC8 : FastRule := { ruleActive with pattern := patC8 }

/-- Cache state of the C4 counterexample: one `Transform` call whose name
contains a colon. -/
def c4cache : TCache :=
  (FastTransform.Transform transformers [] (toL "trim:a") (toL " b")).2

/-- Replay a sequence of `Transform` calls from an empty cache. -/
def runTrace (reg : Str → Option Transformer) (calls : List (Str × Str)) : TCache :=
  calls.foldl (fun c nv => (FastTransform.Transform reg c nv.1 nv.2).2) []

/-- Cache invariant of claim C4: colon-free keys only memoize the
corresponding successful `Apply` outcome. -/
def cacheConsistent (reg : Str → Option Transformer) (c : TCache) : Prop :=
  ∀ n v r, ':' ∉ n → alookup c (n ++ ':' :: v) = some r → Apply reg n v = .ok r

/-- The processed-lines / processing-time projection of the statistics. -/
def statsPT (o : Option FastStats) : Option (Nat × Nat) :=
  o.map fun s => (s.processedLines, s.processingNanos)

/-! ### General lemmas about the embedded definitions -/

theorem alookup_aset_self {α β : Type} [DecidableEq α] (l : List (α × β)) (k : α) (v : β) :
    alookup (aset l k v) k = some v := by
  induction l with
  | nil => simp [aset, alookup]
  | cons hd tl ih =>
    obtain ⟨k', v'⟩ := hd
    by_cases h : k = k' <;> simp [aset, alookup, h, ih]

theorem alookup_aset_ne {α β : Type} [DecidableEq α] (l : List (α × β)) (k k' : α) (v : β)
    (h : k' ≠ k) : alookup (aset l k v) k' = alookup l k' := by
  induction l with
  | nil => simp [aset, alookup, h]
  | cons hd tl ih =>
    obtain ⟨k₀, v₀⟩ := hd
    by_cases h₀ : k = k₀
    · subst h₀; simp [aset, alookup, h]
    · by_cases h₁ : k' = k₀ <;> simp [aset, alookup, h₀, h₁, ih]

theorem splitDot_cons_dot (rest : Str) : splitDot ('.' :: rest) = [] :: splitDot rest := by
  simp [splitDot]

theorem splitDot_cons_ne (c : Char) (rest : Str) (h : ¬ c = '.') :
    splitDot (c :: rest) = consHead [c] (splitDot rest) := by
  simp [splitDot, h]

theorem splitDot_ne_nil (l : Str) : splitDot l ≠ [] := by
  cases l with
  | nil => simp [splitDot]
  | cons c rest =>
    simp only [splitDot]
    split
    · simp
    · cases h : splitDot rest <;> simp [consHead]

theorem joinDot_cons_cons (s : Str) (h : Str) (t : List Str) :
    joinDot (s :: h :: t) = s ++ '.' :: joinDot (h :: t) := rfl

theorem joinDot_consHead_cons (c : Char) (h : Str) (t : List Str) :
    joinDot (consHead [c] (h :: t)) = c :: joinDot (h :: t) := by
  cases t with
  | nil => simp [consHead, joinDot]
  | cons h' t' => simp [consHead, joinDot_cons_cons]

theorem splitDot_exists_cons (l : Str) : ∃ h t, splitDot l = h :: t := by
  cases hs : splitDot l with
  | nil => exact absurd hs (splitDot_ne_nil l)
  | cons h t => exact ⟨h, t, rfl⟩

theorem joinDot_splitDot (l : Str) : joinDot (splitDot l) = l := by
  induction l with
  | nil => simp [splitDot, joinDot]
  | cons c rest ih =>
    obtain ⟨h, t, hsplit⟩ := splitDot_exists_cons rest
    rw [hsplit] at ih
    by_cases hc : c = '.'
    · subst hc
      rw [splitDot_cons_dot, hsplit, joinDot_cons_cons]
      simp [ih]
    · rw [splitDot_cons_ne c rest hc, hsplit, joinDot_consHead_cons]
      simp [ih]

theorem consHead_consHead (a b : Str) (s : List Str) :
    consHead a (consHead b s) = consHead (a ++ b) s := by
  cases s <;> simp [consHead]

theorem splitPathFastAux_dot (cur rest : Str) :
    splitPathFastAux cur ('.' :: rest) = cur.reverse :: splitPathFastAux [] rest := by
  simp [splitPathFastAux]

theorem splitPathFastAux_ne (c : Char) (cur rest : Str) (h : ¬ c = '.') :
    splitPathFastAux cur (c :: rest) = splitPathFastAux (c :: cur) rest := by
  simp [splitPathFastAux, h]

theorem stripLastEmpty_cons_cons (x y : Str) (t : List Str) :
    stripLastEmpty (x :: y :: t) = x :: stripLastEmpty (y :: t) := rfl

theorem splitPathFastAux_eq (l : Str) : ∀ cur : Str,
    splitPathFastAux cur l = stripLastEmpty (consHead cur.reverse (splitDot l)) := by
  induction l with
  | nil =>
    intro cur
    by_cases h : cur = []
    · subst h; simp [splitPathFastAux, splitDot, consHead, stripLastEmpty]
    · have : cur.reverse ≠ [] := by simpa using h
      simp [splitPathFastAux, splitDot, consHead, stripLastEmpty, h, this]
  | cons c rest ih =>
    intro cur
    obtain ⟨h, t, hsplit⟩ := splitDot_exists_cons rest
    by_cases hc : c = '.'
    · subst hc
      rw [splitPathFastAux_dot, ih [], splitDot_cons_dot, hsplit]
      simp only [consHead, List.reverse_nil, List.nil_append, List.append_nil,
        stripLastEmpty_cons_cons]
    · rw [splitPathFastAux_ne c cur rest hc, ih (c :: cur), splitDot_cons_ne c rest hc,
        consHead_consHead]
      have : (c :: cur).reverse = cur.reverse ++ [c] := by simp
      rw [this]

theorem splitPathFast_eq (path : Str) :
    splitPathFast path = stripLastEmpty (splitDot path) := by
  have h := splitPathFastAux_eq path []
  simp only [splitPathFast, h, List.reverse_nil]
  obtain ⟨hd, t, hsplit⟩ : ∃ hd t, splitDot path = hd :: t := by
    cases hs : splitDot path with
    | nil => exact absurd hs (splitDot_ne_nil path)
    | cons hd t => exact ⟨hd, t, rfl⟩
  rw [hsplit]
  simp [consHead]

theorem splitPathSkipAux_dot (cur rest : Str) :
    splitPathSkipAux cur ('.' :: rest) =
      if cur = [] then splitPathSkipAux [] rest
      else cur.reverse :: splitPathSkipAux [] rest := by
  simp [splitPathSkipAux]

theorem splitPathSkipAux_ne (c : Char) (cur rest : Str) (h : ¬ c = '.') :
    splitPathSkipAux cur (c :: rest) = splitPathSkipAux (c :: cur) rest := by
  simp [splitPathSkipAux, h]

theorem splitPathSkipAux_eq (l : Str) : ∀ cur : Str,
    splitPathSkipAux cur l =
      (consHead cur.reverse (splitDot l)).filter (fun s => !s.isEmpty) := by
  induction l with
  | nil =>
    intro cur
    by_cases h : cur = []
    · subst h; simp [splitPathSkipAux, splitDot, consHead]
    · have : cur.reverse ≠ [] := by simpa using h
      simp [splitPathSkipAux, splitDot, consHead, h, this, List.isEmpty_iff]
  | cons c rest ih =>
    intro cur
    obtain ⟨hd, t, hsplit⟩ := splitDot_exists_cons rest
    by_cases hc : c = '.'
    · subst hc
      rw [splitPathSkipAux_dot, ih [], splitDot_cons_dot, hsplit]
      by_cases h : cur = []
      · subst h
        simp [consHead, List.filter]
      · have hrev : ¬ (cur.reverse.isEmpty = true) := by
          simpa [List.isEmpty_iff] using h
        simp [consHead, List.filter, h, hrev]
    · rw [splitPathSkipAux_ne c cur rest hc, ih (c :: cur), splitDot_cons_ne c rest hc,
        consHead_consHead]
      have : (c :: cur).reverse = cur.reverse ++ [c] := by simp
      rw [this]

theorem splitPathSkipEmpty_eq (path : Str) :
    splitPathSkipEmpty path = (splitDot path).filter (fun s => !s.isEmpty) := by
  have h := splitPathSkipAux_eq path []
  simp only [splitPathSkipEmpty, h, List.reverse_nil]
  obtain ⟨hd, t, hsplit⟩ : ∃ hd t, splitDot path = hd :: t := by
    cases hs : splitDot path with
    | nil => exact absurd hs (splitDot_ne_nil path)
    | cons hd t => exact ⟨hd, t, rfl⟩
  rw [hsplit]
  simp [consHead]

theorem stripLastEmpty_cases : ∀ S R : List Str,
    stripLastEmpty S = R → S = R ∨ S = R ++ [[]] := by
  intro S
  induction S with
  | nil => intro R h; left; simp [stripLastEmpty] at h; simp [h]
  | cons x t ih =>
    intro R h
    cases t with
    | nil =>
      by_cases hx : x = []
      · subst hx
        simp [stripLastEmpty] at h
        right; simp [← h]
      · simp [stripLastEmpty, hx] at h
        left; simp [← h]
    | cons y t' =>
      simp only [stripLastEmpty] at h
      cases R with
      | nil => simp at h
      | cons r rs =>
        obtain ⟨hx, hrest⟩ := by simpa using h
        rcases ih rs hrest with h1 | h1
        · left; simp [hx, h1]
        · right; simp [hx, h1]

theorem joinDot_append_empty : ∀ L : List Str, L ≠ [] →
    joinDot (L ++ [[]]) = joinDot L ++ ['.'] := by
  intro L
  induction L with
  | nil => intro h; exact absurd rfl h
  | cons x t ih =>
    intro _
    cases t with
    | nil => simp [joinDot]
    | cons y t' =>
      have h1 := ih (by simp)
      simp only [List.cons_append, joinDot_cons_cons]
      simp only [List.cons_append] at h1
      rw [h1]
      simp

theorem upsert_get_some (s : MapStore) (t k : Str) (f : Unit → Entity) (e0 : Entity)
    (h : MapStore.Get s t k = some e0) : MapStore.Upsert s t k f = (e0, s) := by
  simp only [MapStore.Get] at h
  simp only [MapStore.Upsert]
  cases hT : alookup s t with
  | none => simp [hT] at h
  | some g =>
    simp only [hT] at h ⊢
    simp [h]

theorem upsert_get_none (s : MapStore) (t k : Str) (f : Unit → Entity)
    (h : MapStore.Get s t k = none) :
    (MapStore.Upsert s t k f).1 = f () ∧
    MapStore.Get (MapStore.Upsert s t k f).2 t k = some (f ()) ∧
    (∀ t' k', ¬ (t' = t ∧ k' = k) →
      MapStore.Get (MapStore.Upsert s t k f).2 t' k' = MapStore.Get s t' k') := by
  simp only [MapStore.Get] at h
  cases hT : alookup s t with
  | none =>
    simp only [MapStore.Upsert, MapStore.Get, hT]
    refine ⟨trivial, ?_, ?_⟩
    · simp [alookup_aset_self]
    · intro t' k' hne
      by_cases ht' : t' = t
      · subst ht'
        have hk' : k' ≠ k := fun hk => hne ⟨rfl, hk⟩
        simp [alookup_aset_self, alookup_aset_ne _ _ _ _ hk', hT, alookup, hk']
      · simp [alookup_aset_ne _ _ _ _ ht']
  | some g =>
    simp only [hT] at h
    simp only [MapStore.Upsert, MapStore.Get, hT, h]
    refine ⟨trivial, ?_, ?_⟩
    · simp [alookup_aset_self]
    · intro t' k' hne
      by_cases ht' : t' = t
      · subst ht'
        have hk' : k' ≠ k := fun hk => hne ⟨rfl, hk⟩
        simp [alookup_aset_self, alookup_aset_ne _ _ _ _ hk', hT, hk']
      · simp [alookup_aset_ne _ _ _ _ ht']

theorem poolGet_none_iff (p : ObjectPool) (t : Str) :
    (ObjectPool.Get p t).1 = none ↔ alookup p t = none := by
  simp only [ObjectPool.Get]
  cases h : alookup p t with
  | none => simp
  | some entry =>
    cases hi : entry.items with
    | nil => simp [hi]
    | cons x rest => simp [hi]

theorem poolGet_some_spec (p : ObjectPool) (t : Str) (o : Entity) (p' : ObjectPool)
    (h : ObjectPool.Get p t = (some o, p')) :
    ∃ entry, alookup p t = some entry ∧ (o ∈ entry.items ∨ o = entry.newF ()) := by
  simp only [ObjectPool.Get] at h
  cases hT : alookup p t with
  | none => simp [hT] at h
  | some entry =>
    simp only [hT] at h
    refine ⟨entry, rfl, ?_⟩
    cases hi : entry.items with
    | nil =>
      simp only [hi, Prod.mk.injEq, Option.some.injEq] at h
      exact Or.inr h.1.symm
    | cons x rest =>
      simp only [hi, Prod.mk.injEq, Option.some.injEq] at h
      refine Or.inl ?_
      have hox : o = x := h.1.symm
      rw [hox]
      exact List.mem_cons_self x rest

theorem statsPT_update (o : Option FastStats) (f : FastStats → FastStats)
    (h1 : ∀ s, (f s).processedLines = s.processedLines)
    (h2 : ∀ s, (f s).processingNanos = s.processingNanos) :
    statsPT (o.map f) = statsPT o := by
  cases o <;> simp [statsPT, h1, h2]

theorem acquire_spec (m : FastMapper) (ent : Str) (obj : Entity) (m' : FastMapper)
    (h : FastMapper.acquire m ent = some (obj, m')) :
    m'.router = m.router ∧ m'.rules = m.rules ∧ m'.registry = m.registry ∧
    m'.store = m.store ∧ m'.transformer = m.transformer ∧ m'.errors = m.errors ∧
    ((∃ entry, alookup m.objectPool ent = some entry ∧
        (obj ∈ entry.items ∨ obj = entry.newF ())) ∨
      (∃ info, alookup m.registry ent = some info ∧ obj = info.factory ())) ∧
    statsPT m'.stats = statsPT m.stats ∧
    m'.stats.map (fun s => s.failedRules) = m.stats.map (fun s => s.failedRules) := by
  simp only [FastMapper.acquire] at h
  rcases hG : ObjectPool.Get m.objectPool ent with ⟨oo, pool'⟩
  rw [hG] at h
  cases oo with
  | some o =>
    simp only [Option.some.injEq, Prod.mk.injEq] at h
    obtain ⟨ho, hm'⟩ := h
    subst hm'
    subst ho
    refine ⟨rfl, rfl, rfl, rfl, rfl, rfl, Or.inl (poolGet_some_spec _ _ _ _ hG), ?_, ?_⟩
    · exact statsPT_update _ _ (fun s => rfl) (fun s => rfl)
    · cases m.stats <;> simp
  | none =>
    cases hR : alookup m.registry ent with
    | none => rw [hR] at h; simp at h
    | some info =>
      rw [hR] at h
      simp only [Option.some.injEq, Prod.mk.injEq] at h
      obtain ⟨ho, hm'⟩ := h
      subst hm'
      refine ⟨rfl, rfl, rfl, rfl, rfl, rfl, Or.inr ⟨info, rfl, ho.symm⟩, ?_, ?_⟩
      · exact statsPT_update _ _ (fun s => rfl) (fun s => rfl)
      · cases m.stats <;> simp

theorem applySetter_statsPT (m : FastMapper) (rule : FastRule) (key : Str)
    (obj : Entity) (v : Value) :
    statsPT (FastMapper.applySetter m rule key obj v).stats = statsPT m.stats := by
  simp only [FastMapper.applySetter]
  split
  · rfl
  · split
    · rfl
    · split
      · rfl
      · exact statsPT_update _ _ (fun s => rfl) (fun s => rfl)

/-- C9: the Upsert/Get contract of the entity store: an existing entity is
returned with the store unchanged; otherwise the factory's result is
installed, returned, visible to `Get`, and no other entry changes. -/
theorem c9_upsert_contract : ∀ (s : MapStore) (t k : Str) (f : Unit → Entity),
    match MapStore.Get s t k with
    | some e => MapStore.Upsert s t k f = (e, s)
    | none =>
      (MapStore.Upsert s t k f).1 = f () ∧
      MapStore.Get (MapStore.Upsert s t k f).2 t k = some (f ()) ∧
      (∀ t' k', ¬ (t' = t ∧ k' = k) →
        MapStore.Get (MapStore.Upsert s t k f).2 t' k' = MapStore.Get s t' k') := by
  intro s t k f
  cases h : MapStore.Get s t k with
  | some e => exact upsert_get_some s t k f e h
  | none => exact upsert_get_none s t k f h

/-- Witness for C9 at a concrete store. -/
theorem c9_upsert_contract_witness :
    MapStore.Get ((MapStore.Upsert [] (toL "host") (toL "k1") (fun _ => [])).2)
      (toL "host") (toL "k1") = some [] := by
  have h := c9_upsert_contract [] (toL "host") (toL "k1") (fun _ => [])
  simp only [show MapStore.Get [] (toL "host") (toL "k1") = none from rfl] at h
  exact h.2.1

/-- C10: pool `Get` signals `(nil, false)` exactly for unregistered type
names; for a registered name with an empty reservoir it allocates via the
registered factory and the orchestrator counts the acquisition as a reuse
(not an allocation). -/
theorem c10_pool_get_total :
    (∀ (p : ObjectPool) (t : Str), (ObjectPool.Get p t).1 = none ↔ alookup p t = none)
    ∧ (∀ (m : FastMapper) (ent : Str) (entry : PoolEntry),
        alookup m.objectPool ent = some entry → entry.items = [] →
        FastMapper.acquire m ent =
          some (entry.newF (), { m with stats := m.stats.map fun s =>
            { s with reuseCount := s.reuseCount + 1 } })) := by
  constructor
  · exact poolGet_none_iff
  · intro m ent entry hlook hitems
    simp [FastMapper.acquire, ObjectPool.Get, hlook, hitems]

/-- Witness for C10: a registered `host` type with an empty reservoir. -/
theorem c10_pool_get_total_witness :
    FastMapper.acquire mapperC3 (toL "host") =
      some (hostInfo.factory (), { mapperC3 with stats := mapperC3.stats.map fun s =>
        { s with reuseCount := s.reuseCount + 1 } }) :=
  c10_pool_get_total.2 mapperC3 (toL "host")
    { items := [], newF := hostInfo.factory } rfl rfl

/-- C6: processing a path that matches no pattern succeeds and changes
nothing except the miss counter. -/
theorem c6_unmatched_frame : ∀ (m : FastMapper) (path value : Str) (elapsed : Nat),
    FastRouter.Route m.router path = none →
    FastMapper.ProcessContext m path value elapsed =
      (.ok (), { m with stats := m.stats.map fun s =>
        { s with cacheMisses := s.cacheMisses + 1 } }) := by
  intro m path value elapsed h
  simp [FastMapper.ProcessContext, h]

/-- Witness for C6 on a concrete empty mapper. -/
theorem c6_unmatched_frame_witness :
    FastMapper.ProcessContext mEmpty (toL "X") (toL "v") 7 =
      (.ok (), { mEmpty with stats := mEmpty.stats.map fun s =>
        { s with cacheMisses := s.cacheMisses + 1 } }) :=
  c6_unmatched_frame mEmpty (toL "X") (toL "v") 7 rfl

theorem processMatched_statsPT (m : FastMapper) (pat : Pattern) (path value : Str) :
    statsPT (FastMapper.processMatched m pat path value).2.stats = statsPT m.stats := by
  cases hr : alookup m.rules pat.id with
  | none => simp [FastMapper.processMatched, hr]
  | some rule =>
    cases ha : FastMapper.acquire m rule.entity with
    | none => simp [FastMapper.processMatched, hr, ha]
    | some om =>
      obtain ⟨obj, m1⟩ := om
      have hs := (acquire_spec m rule.entity obj m1 ha).2.2.2.2.2.2.2.1
      simp only [FastMapper.processMatched, hr, ha]
      by_cases hex :
          (MapStore.Get m1.store rule.entity (rule.extractor.extract path value)).isSome = true
      all_goals
        simp only [hex, if_true, if_false, Bool.false_eq_true]
      all_goals
        by_cases htr : rule.transform = []
      all_goals
        simp only [htr, if_true, if_false]
      all_goals
        first
          | (rw [applySetter_statsPT]; exact hs)
          | (split <;>
              first
                | (rw [applySetter_statsPT]; exact hs)
                | (exact Eq.trans (statsPT_update _ _ (fun s => rfl) (fun s => rfl)) hs))

theorem statsPT_bump (o : Option FastStats) (e : Nat) :
    statsPT (o.map fun s =>
      { s with processedLines := s.processedLines + 1
               processingNanos := s.processingNanos + e }) =
      o.map (fun s => (s.processedLines + 1, s.processingNanos + e)) := by
  cases o <;> simp [statsPT]

theorem statsPT_congr_bump (o₁ o₂ : Option FastStats) (e : Nat)
    (h : statsPT o₁ = statsPT o₂) :
    o₁.map (fun s => (s.processedLines + 1, s.processingNanos + e)) =
      o₂.map (fun s => (s.processedLines + 1, s.processingNanos + e)) := by
  cases o₁ <;> cases o₂ <;> simp_all [statsPT]

/-- C7 (amended): a call whose path matches a registered pattern increments
the processed count by one and adds the elapsed time, on every exit of the
matched body; an unmatched call leaves both untouched. -/
theorem c7_processed_time : ∀ (m : FastMapper) (path value : Str) (elapsed : Nat),
    (FastRouter.Route m.router path ≠ none →
      statsPT (FastMapper.ProcessContext m path value elapsed).2.stats =
        m.stats.map (fun s => (s.processedLines + 1, s.processingNanos + elapsed)))
    ∧ (FastRouter.Route m.router path = none →
      statsPT (FastMapper.ProcessContext m path value elapsed).2.stats = statsPT m.stats) := by
  intro m path value elapsed
  cases hR : FastRouter.Route m.router path with
  | none =>
    refine ⟨fun hne => absurd rfl hne, fun _ => ?_⟩
    simp only [FastMapper.ProcessContext, hR]
    exact statsPT_update _ _ (fun s => rfl) (fun s => rfl)
  | some pat =>
    refine ⟨fun _ => ?_, fun hno => Option.noConfusion hno⟩
    simp only [FastMapper.ProcessContext, hR]
    have h1 := processMatched_statsPT
      { m with stats := m.stats.map fun s => { s with matchedRules := s.matchedRules + 1 } }
      pat path value
    have h0 : statsPT ({ m with stats := m.stats.map fun s =>
        { s with matchedRules := s.matchedRules + 1 } } : FastMapper).stats =
        statsPT m.stats :=
      statsPT_update _ _ (fun s => rfl) (fun s => rfl)
    rw [statsPT_bump]
    exact statsPT_congr_bump _ _ elapsed (h1.trans h0)

/-- Witness for C7 on the concrete host mapper (a matched call). -/
theorem c7_processed_time_witness :
    statsPT (FastMapper.ProcessContext mapperC3 (toL "Device.Hosts.Host.1.PhysAddress")
        (toL "11-22-33-44-55-66") 5).2.stats =
      mapperC3.stats.map (fun s => (s.processedLines + 1, s.processingNanos + 5)) :=
  (c7_processed_time mapperC3 (toL "Device.Hosts.Host.1.PhysAddress")
    (toL "11-22-33-44-55-66") 5).1 (by decide)

/-- Counterexample to C7 as stated: an unmatched `Process` call increments
neither the processed count nor the processing time. -/
theorem c7_counterexample :
    (FastMapper.ProcessContext mEmpty (toL "X") (toL "v") 5).2.stats.map
        (fun s => s.processedLines) = some 0 ∧
    mEmpty.stats.map (fun s => s.processedLines + 1) = some 1 ∧
    (FastMapper.ProcessContext mEmpty (toL "X") (toL "v") 5).2.stats.map
        (fun s => s.processingNanos) = some 0 ∧
    (some 0 : Option Nat) ≠ some 1 :=
  ⟨rfl, rfl, rfl, by decide⟩

theorem colon_append_inj : ∀ (n m v w : Str), ':' ∉ n → ':' ∉ m →
    n ++ ':' :: v = m ++ ':' :: w → n = m ∧ v = w := by
  intro n
  induction n with
  | nil =>
    intro m v w _ hm h
    cases m with
    | nil => simpa using h
    | cons d m' =>
      simp only [List.nil_append, List.cons_append, List.cons.injEq] at h
      rw [← h.1] at hm
      exact absurd (List.mem_cons_self _ _) hm
  | cons c n' ih =>
    intro m v w hn hm h
    cases m with
    | nil =>
      simp only [List.cons_append, List.nil_append, List.cons.injEq] at h
      rw [h.1] at hn
      exact absurd (List.mem_cons_self _ _) hn
    | cons d m' =>
      simp only [List.cons_append, List.cons.injEq] at h
      obtain ⟨hcd, hrest⟩ := h
      have hn' : ':' ∉ n' := fun hx => hn (List.mem_cons_of_mem _ hx)
      have hm' : ':' ∉ m' := fun hx => hm (List.mem_cons_of_mem _ hx)
      obtain ⟨h1, h2⟩ := ih m' v w hn' hm' hrest
      exact ⟨by rw [hcd, h1], h2⟩

theorem transform_preserves_consistent (reg : Str → Option Transformer) (c : TCache)
    (nm vl : Str) (hnm : ':' ∉ nm) (hc : cacheConsistent reg c) :
    cacheConsistent reg (FastTransform.Transform reg c nm vl).2 := by
  cases hl : alookup c (nm ++ ':' :: vl) with
  | some cached => simpa [FastTransform.Transform, hl] using hc
  | none =>
    cases hap : Apply reg nm vl with
    | error e => simpa [FastTransform.Transform, hl, hap] using hc
    | ok res =>
      simp only [FastTransform.Transform, hl, hap]
      intro n v r hn hlook
      by_cases hkey : n ++ ':' :: v = nm ++ ':' :: vl
      · have hr : r = res := by
          rw [hkey, alookup_aset_self] at hlook
          exact (Option.some.inj hlook).symm
        obtain ⟨he1, he2⟩ := colon_append_inj n nm v vl hn hnm hkey
        rw [he1, he2, hap, hr]
      · rw [alookup_aset_ne _ _ _ _ hkey] at hlook
        exact hc n v r hn hlook

theorem runTrace_aux_consistent (reg : Str → Option Transformer) :
    ∀ (calls : List (Str × Str)) (c : TCache),
    cacheConsistent reg c → (∀ nv ∈ calls, ':' ∉ nv.1) →
    cacheConsistent reg
      (calls.foldl (fun c nv => (FastTransform.Transform reg c nv.1 nv.2).2) c) := by
  intro calls
  induction calls with
  | nil => intro c hc _; exact hc
  | cons hd tl ih =>
    intro c hc hall
    simp only [List.foldl_cons]
    exact ih _
      (transform_preserves_consistent reg c hd.1 hd.2 (hall hd (List.mem_cons_self _ _)) hc)
      (fun nv hnv => hall nv (List.mem_cons_of_mem _ hnv))

/-- C4 (amended): after any prior sequence of `Transform` calls whose
transform names contain no `':'`, `Transform(name, value)` for a colon-free
`name` returns exactly what `Apply(name, value)` returns — the
concatenated cache key `name + ":" + value` is unambiguous for colon-free
names. -/
theorem c4_transform_refines_apply : ∀ (reg : Str → Option Transformer)
    (calls : List (Str × Str)) (name value : Str),
    (∀ nv ∈ calls, ':' ∉ nv.1) → ':' ∉ name →
    (FastTransform.Transform reg (runTrace reg calls) name value).1 =
      Apply reg name value := by
  intro reg calls name value hcalls hname
  have hcons : cacheConsistent reg (runTrace reg calls) := by
    have hempty : cacheConsistent reg [] := fun n v r _ h => by simp [alookup] at h
    exact runTrace_aux_consistent reg calls [] hempty hcalls
  cases hl : alookup (runTrace reg calls) (name ++ ':' :: value) with
  | some cached =>
    have hap := hcons name value cached hname hl
    simp [FastTransform.Transform, hl, hap]
  | none =>
    cases hap : Apply reg name value with
    | ok r => simp [FastTransform.Transform, hl, hap]
    | error e => simp [FastTransform.Transform, hl, hap]

/-- Witness for C4 (amended) on the seeded registry. -/
theorem c4_transform_refines_apply_witness :
    (FastTransform.Transform transformers (runTrace transformers []) (toL "trim")
        (toL "x")).1 = Apply transformers (toL "trim") (toL "x") :=
  c4_transform_refines_apply transformers [] (toL "trim") (toL "x")
    (by simp) (by decide)

/-- Counterexample to C4 as stated: after a prior `Transform` call whose
name contains a colon (`"trim:a"`), the registered name `"trim"` on raw
value `"a: b"` hits the colliding cache key `"trim:a: b"` and returns the
other pair's outcome, differing from `Apply`. -/
theorem c4_counterexample :
    (transformers (toL "trim")).isSome = true ∧
    (FastTransform.Transform transformers c4cache (toL "trim") (toL "a: b")).1 =
      .ok (.vStr (toL " b")) ∧
    Apply transformers (toL "trim") (toL "a: b") = .ok (.vStr (toL "a: b")) ∧
    Value.vStr (toL " b") ≠ Value.vStr (toL "a: b") :=
  ⟨rfl, rfl, rfl, by decide⟩

/-- C5 (amended): `path[N]` returns the Nth zero-indexed dot-delimited
segment of the path with empty segments omitted (consecutive, leading or
trailing dots produce no segment), the empty string out of range, and the
literal prefix is prepended to an in-range result. -/
theorem c5_index_extractor : ∀ (pos : Int) (pfx path value : Str),
    KeyExtractor.extract (.index pos pfx) path value =
      (if 0 ≤ pos ∧ pos.toNat < ((splitDot path).filter (fun s => !s.isEmpty)).length
       then pfx ++ ((splitDot path).filter (fun s => !s.isEmpty)).getD pos.toNat []
       else []) := by
  intro pos pfx path value
  simp only [KeyExtractor.extract, splitPathSkipEmpty_eq]
  by_cases hc : 0 ≤ pos ∧
      pos.toNat < ((splitDot path).filter (fun s => !s.isEmpty)).length
  · rw [if_neg (by omega), if_pos hc]
    by_cases hp : pfx = [] <;> simp [hp]
  · rw [if_pos (by omega), if_neg hc]

/-- Counterexample to C5 as stated: on `"A..B"` the code's segment list is
`["A", "B"]` (the empty middle segment is dropped), so `path[1]` yields
`"B"`, while the claim's counting-empty-segments reading yields `""`. -/
theorem c5_counterexample :
    KeyExtractor.extract (.index 1 []) (toL "A..B") [] = toL "B" ∧
    c5ClaimSegGet 1 [] (toL "A..B") = [] ∧
    toL "B" ≠ ([] : Str) :=
  ⟨rfl, rfl, by decide⟩

theorem searchGo_emptyNode : ∀ path, TrieNode.searchGo TrieNode.emptyNode path = [] := by
  intro path
  cases path <;> simp [TrieNode.searchGo, TrieNode.emptyNode, alookup]

theorem compile_nowild (t : Str) (h : ¬ (t.contains '*' = true)) :
    CompilePattern t =
      { id := [], originalPath := t, pfx := t, suffix := [], contains := [],
        parts := [], minParts := 0, maxParts := 0, wildcardPos := none,
        entity := [], field := [], priority := 0 } := by
  have h' : '*' ∉ t := by simpa using h
  simp [CompilePattern, h']

theorem route_exact_only (t path : Str) (p : Pattern) (hne : path ≠ t) :
    FastRouter.Route { FastRouter.New with exactMatches := aset [] t p } path = none := by
  simp only [FastRouter.Route, FastRouter.New]
  have h1 : alookup (aset ([] : List (Str × Pattern)) t p) path = none := by
    rw [alookup_aset_ne _ _ _ _ hne]; rfl
  rw [h1, searchGo_emptyNode]
  simp only [List.find?_nil]
  cases hld : lastIndexDot path with
  | none => simp [alookup]
  | some i => by_cases hi : 0 < i <;> simp [hi, alookup]

/-- C2 (amended): a pattern compiled from a NONEMPTY text with no `'*'`
lands only in the exact-match table; in a router holding just that pattern,
`Route` returns it exactly on the pattern's full text; and the exact tier
pre-empts a wildcard pattern that also structurally matches the same path. -/
theorem c2_exact_match_tier :
    (∀ (t : Str) (r : FastRouter), t ≠ [] → ¬ (t.contains '*' = true) →
      FastRouter.AddPattern r (CompilePattern t) =
        { r with exactMatches := aset r.exactMatches t (CompilePattern t) })
    ∧ (∀ (t path : Str), t ≠ [] → ¬ (t.contains '*' = true) →
      (FastRouter.Route (FastRouter.AddPattern FastRouter.New (CompilePattern t)) path
        = some (CompilePattern t) ↔ path = t))
    ∧ matchPatternFast (toL "A.X.C") (CompilePattern (toL "A.*.C")) = true
    ∧ FastRouter.Route routerExactDemo (toL "A.X.C") = some (CompilePattern (toL "A.X.C")) := by
  have haddgen : ∀ (t : Str) (r : FastRouter), t ≠ [] → ¬ (t.contains '*' = true) →
      FastRouter.AddPattern r (CompilePattern t) =
        { r with exactMatches := aset r.exactMatches t (CompilePattern t) } := by
    intro t r ht hw
    rw [compile_nowild t hw]
    simp [FastRouter.AddPattern, ht]
  refine ⟨haddgen, ?_, by decide, rfl⟩
  intro t path ht hw
  rw [haddgen t FastRouter.New ht hw]
  constructor
  · intro h
    by_cases hp : path = t
    · exact hp
    · rw [show ({ FastRouter.New with
          exactMatches := aset FastRouter.New.exactMatches t (CompilePattern t) } :
            FastRouter) =
          { FastRouter.New with exactMatches := aset [] t (CompilePattern t) } from rfl,
        route_exact_only t path _ hp] at h
      exact Option.noConfusion h
  · intro hp
    subst hp
    simp [FastRouter.Route, alookup_aset_self]

/-- Witness for C2 (amended) on the text `"B.D"`. -/
theorem c2_exact_match_tier_witness :
    FastRouter.Route (FastRouter.AddPattern FastRouter.New (CompilePattern (toL "B.D")))
        (toL "B.D") = some (CompilePattern (toL "B.D")) :=
  (c2_exact_match_tier.2.1 (toL "B.D") (toL "B.D") (by decide) (by decide)).mpr rfl

/-- Counterexample to C2 as stated: the empty text contains no `'*'`, but
its compiled pattern has an empty prefix, is stored in the fallback list
(not the exact table), and is returned for a path different from its
original text. -/
theorem c2_counterexample :
    (([] : Str).contains '*') = false ∧
    routerEmptyText.exactMatches = [] ∧
    routerEmptyText.patterns = [patEmptyText] ∧
    FastRouter.Route routerEmptyText (toL "X") = some patEmptyText ∧
    toL "X" ≠ patEmptyText.originalPath :=
  ⟨rfl, rfl, rfl, rfl, by decide⟩

/-- C3: processing `Device.Hosts.Host.1.PhysAddress` = `11-22-33-44-55-66`
against the host rule succeeds and leaves exactly one `host` entity, stored
at key `host:1`, whose `MACAddress` is the normalized `11:22:33:44:55:66`. -/
theorem c3_host_mac_scenario :
    procC3.1 = .ok () ∧
    MapStore.Get procC3.2.store (toL "host") (toL "host:1")
      = some [(toL "MACAddress", .vStr (toL "11:22:33:44:55:66"))] ∧
    (MapStore.GetAll procC3.2.store (toL "host")).length = 1 ∧
    procC3.2.errors = [] :=
  ⟨rfl, rfl, rfl, rfl⟩

theorem acquire_succeeds (m : FastMapper) (ent : Str)
    (h : (ObjectPool.Get m.objectPool ent).1.isSome ∨ (alookup m.registry ent).isSome) :
    ∃ obj m', FastMapper.acquire m ent = some (obj, m') := by
  simp only [FastMapper.acquire]
  rcases hG : ObjectPool.Get m.objectPool ent with ⟨oo, pool'⟩
  cases oo with
  | some o => exact ⟨o, _, rfl⟩
  | none =>
    cases hR : alookup m.registry ent with
    | none =>
      rcases h with h | h
      · rw [hG] at h; simp at h
      · rw [hR] at h; simp at h
    | some info => exact ⟨info.factory (), _, rfl⟩

theorem optstat_map_succ_congr (o₁ o₂ : Option FastStats) (g : FastStats → Nat)
    (h : o₁.map g = o₂.map g) :
    o₁.map (fun s => g s + 1) = o₂.map (fun s => g s + 1) := by
  cases o₁ <;> cases o₂ <;> simp_all

theorem optstat_proj_map (o : Option FastStats) (f : FastStats → FastStats)
    (g : FastStats → Nat) (h : ∀ s, g (f s) = g s) : (o.map f).map g = o.map g := by
  cases o <;> simp [h]

theorem optstat_failed_bump (o : Option FastStats) :
    (o.map (fun s => { s with failedRules := s.failedRules + 1 })).map
        (fun s => s.failedRules) = o.map (fun s => s.failedRules + 1) := by
  cases o <;> simp

/-- C8: when the matched rule's transform fails on the raw value, `Process`
reports the wrapped error to the handler, increments the failed counter,
returns success, and writes no field of any stored entity — the only
possible store change is the upsert installing the still-pristine candidate
(a pooled or freshly manufactured instance). -/
theorem c8_transform_failure : ∀ (m : FastMapper) (path value : Str) (elapsed : Nat)
    (pat : Pattern) (rule : FastRule) (e : GoErr),
    FastRouter.Route m.router path = some pat →
    alookup m.rules pat.id = some rule →
    rule.transform ≠ [] →
    (FastTransform.Transform transformers m.transformer rule.transform value).1 = .error e →
    ((ObjectPool.Get m.objectPool rule.entity).1.isSome ∨
      (alookup m.registry rule.entity).isSome) →
    ((FastMapper.ProcessContext m path value elapsed).1 = .ok () ∧
     (FastMapper.ProcessContext m path value elapsed).2.errors =
       m.errors ++ [toL "transform failed: " ++ e] ∧
     (FastMapper.ProcessContext m path value elapsed).2.stats.map (fun s => s.failedRules)
       = m.stats.map (fun s => s.failedRules + 1) ∧
     (∀ t k, ¬ (t = rule.entity ∧ k = rule.extractor.extract path value) →
       MapStore.Get (FastMapper.ProcessContext m path value elapsed).2.store t k =
         MapStore.Get m.store t k) ∧
     (∀ e0, MapStore.Get m.store rule.entity (rule.extractor.extract path value) = some e0 →
       MapStore.Get (FastMapper.ProcessContext m path value elapsed).2.store rule.entity
         (rule.extractor.extract path value) = some e0) ∧
     (MapStore.Get m.store rule.entity (rule.extractor.extract path value) = none →
       ∃ obj, MapStore.Get (FastMapper.ProcessContext m path value elapsed).2.store
           rule.entity (rule.extractor.extract path value) = some obj ∧
         ((∃ entry, alookup m.objectPool rule.entity = some entry ∧
             (obj ∈ entry.items ∨ obj = entry.newF ())) ∨
          (∃ info, alookup m.registry rule.entity = some info ∧
             obj = info.factory ())))) := by
  intro m path value elapsed pat rule e hroute hrule htr htrans hacq
  obtain ⟨obj, m1, hacq1⟩ :=
    acquire_succeeds
      { m with stats := m.stats.map fun s => { s with matchedRules := s.matchedRules + 1 } }
      rule.entity hacq
  obtain ⟨-, -, -, hstore0, htransf0, herrs0, hchar0, -, hFR⟩ :=
    acquire_spec _ rule.entity obj m1 hacq1
  have hstore : m1.store = m.store := hstore0
  have htransf : m1.transformer = m.transformer := htransf0
  have herrs : m1.errors = m.errors := herrs0
  have hchar : (∃ entry, alookup m.objectPool rule.entity = some entry ∧
      (obj ∈ entry.items ∨ obj = entry.newF ())) ∨
      (∃ info, alookup m.registry rule.entity = some info ∧ obj = info.factory ()) := hchar0
  have hFRm : m1.stats.map (fun s => s.failedRules) = m.stats.map (fun s => s.failedRules) := by
    refine hFR.trans ?_
    exact optstat_proj_map m.stats
      (fun s => { s with matchedRules := s.matchedRules + 1 }) _ (fun s => rfl)
  simp only [FastMapper.ProcessContext, hroute, FastMapper.processMatched, hrule, hacq1,
    htr, if_neg htr, hstore, htransf, if_false, ite_false]
  cases hEx : MapStore.Get m.store rule.entity (rule.extractor.extract path value) with
  | some e0 =>
    have hup := upsert_get_some m.store rule.entity (rule.extractor.extract path value)
      (fun _ => obj) e0 hEx
    refine ⟨?_, ?_, ?_, ?_, ?_, ?_⟩
    · simp [hup, htrans]
    · simp [hup, htrans, herrs]
    · simp only [hup, Option.isSome_some, ite_true, if_true, htrans]
      exact Eq.trans (optstat_proj_map _ _ _ (fun s => rfl))
        (Eq.trans (optstat_failed_bump _) (optstat_map_succ_congr _ _ _ hFRm))
    · intro t k _
      simp [hup, htrans]
    · intro e1 h1
      simp only [hup, Option.isSome_some, ite_true, if_true, htrans]
      rw [hEx, h1]
    · intro h1
      exact Option.noConfusion h1
  | none =>
    obtain ⟨hup1, hup2, hup3⟩ := upsert_get_none m.store rule.entity
      (rule.extractor.extract path value) (fun _ => obj) hEx
    refine ⟨?_, ?_, ?_, ?_, ?_, ?_⟩
    · simp [htrans]
    · simp [htrans, herrs]
    · simp only [Option.isSome_none, Bool.false_eq_true, ite_false, if_false, htrans]
      exact Eq.trans (optstat_proj_map _ _ _ (fun s => rfl))
        (Eq.trans (optstat_failed_bump _) (optstat_map_succ_congr _ _ _ hFRm))
    · intro t k hne
      simp only [Option.isSome_none, Bool.false_eq_true, ite_false, if_false, htrans]
      exact hup3 t k hne
    · intro e1 h1
      exact Option.noConfusion h1
    · intro _
      simp only [Option.isSome_none, Bool.false_eq_true, ite_false, if_false, htrans]
      exact ⟨obj, by simpa using hup2, hchar⟩

/-- Witness for C8: the `int` transform fails on `"abc"`; the handler
records the wrapped error and the call still succeeds. -/
theorem c8_transform_failure_witness :
    (FastMapper.ProcessContext mapperC8 (toL "Device.Hosts.Host.2.Active") (toL "abc") 3).1
      = .ok () ∧
    (FastMapper.ProcessContext mapperC8 (toL "Device.Hosts.Host.2.Active")
        (toL "abc") 3).2.errors
      = mapperC8.errors ++ [toL "transform failed: " ++ toL "invalid syntax"] := by
  have h := c8_transform_failure mapperC8 (toL "Device.Hosts.Host.2.Active") (toL "abc") 3
    patC8 ruleC8 (toL "invalid syntax") rfl rfl (by decide) rfl (Or.inl rfl)
  exact ⟨h.1, h.2.1⟩

theorem patternAC_eq : patternAC =
    { id := [], originalPath := toL "A.*.C", pfx := toL "A.", suffix := toL ".C",
      contains := [], parts := [toL "A", toL "*", toL "C"], minParts := 3, maxParts := 3,
      wildcardPos := some [1], entity := [], field := [], priority := 0 } := rfl

theorem matchAC_unfold (path : Str) :
    matchPatternFast path patternAC =
      ((toL "A.").isPrefixOf path &&
        ((toL ".C").isSuffixOf path && matchParts path patternAC)) := by
  simp only [matchPatternFast, patternAC_eq]
  split
  · rename_i hcond
    rw [hcond.2]
    simp
  · rename_i hcond
    have hp : (toL "A.").isPrefixOf path = true := by
      by_contra hnp
      exact hcond ⟨by decide, Bool.eq_false_iff.mpr hnp⟩
    split
    · rename_i hcond2
      simp [hp, hcond2.2]
    · rename_i hcond2
      have hs : (toL ".C").isSuffixOf path = true := by
        by_contra hns
        exact hcond2 ⟨by decide, Bool.eq_false_iff.mpr hns⟩
      split
      · rename_i hcond3
        exact absurd (fun s hsm => absurd hsm (List.not_mem_nil s)) hcond3
      · split
        · simp [hp, hs]
        · rename_i hparts
          exact absurd (by decide) hparts

theorem matchPartsAC (path : Str) :
    matchParts path patternAC = true ↔
      ∃ b, splitPathFast path = [toL "A", b, toL "C"] := by
  constructor
  · intro h
    simp only [matchParts, patternAC_eq, Bool.and_eq_true, beq_iff_eq] at h
    obtain ⟨hlen, hall⟩ := h
    obtain ⟨s0, s1, s2, hsp⟩ := List.length_eq_three.mp hlen
    rw [hsp] at hall
    simp only [List.zip, List.zipWith, List.all_cons, List.all_nil, Bool.and_eq_true,
      Bool.or_eq_true, beq_iff_eq] at hall
    obtain ⟨h0, -, h2, -⟩ := hall
    refine ⟨s1, ?_⟩
    rw [hsp]
    have hs0 : s0 = toL "A" := by
      rcases h0 with h0 | h0
      · exact absurd h0 (by decide)
      · exact h0.symm
    have hs2 : s2 = toL "C" := by
      rcases h2 with h2 | h2
      · exact absurd h2 (by decide)
      · exact h2.symm
    rw [hs0, hs2]
  · rintro ⟨b, hb⟩
    simp [matchParts, patternAC_eq, hb]

theorem matchAC_iff_cond (path : Str) :
    matchPatternFast path patternAC = true ↔ condAC path = true := by
  rw [matchAC_unfold]
  simp only [Bool.and_eq_true]
  constructor
  · rintro ⟨hp, hs, hm⟩
    obtain ⟨b, hb⟩ := (matchPartsAC path).mp hm
    rw [splitPathFast_eq] at hb
    rcases stripLastEmpty_cases (splitDot path) _ hb with hS | hS
    · simp [condAC, hS]
    · exfalso
      have hpath : path = joinDot ([toL "A", b, toL "C"] ++ [[]]) := by
        rw [← joinDot_splitDot path, hS]
      rw [joinDot_append_empty _ (by simp)] at hpath
      have hlast1 : path.getLast? = some '.' := by
        rw [hpath]; exact List.getLast?_concat _
      obtain ⟨u, hu⟩ := List.isSuffixOf_iff_suffix.mp hs
      have hlast2 : path.getLast? = some 'C' := by
        rw [← hu, show u ++ toL ".C" = (u ++ ['.']) ++ ['C'] by simp [toL]]
        exact List.getLast?_concat _
      rw [hlast1] at hlast2
      exact absurd (Option.some.inj hlast2) (by decide)
  · intro hc
    obtain ⟨b, hS⟩ : ∃ b, splitDot path = [toL "A", b, toL "C"] := by
      revert hc
      unfold condAC
      cases hS : splitDot path with
      | nil => intro hc; simp at hc
      | cons a t0 =>
        cases t0 with
        | nil => intro hc; simp at hc
        | cons b t1 =>
          cases t1 with
          | nil => intro hc; simp at hc
          | cons c t2 =>
            cases t2 with
            | nil =>
              intro hc
              simp only [Bool.and_eq_true, beq_iff_eq] at hc
              rw [hc.1, hc.2]
              exact ⟨b, rfl⟩
            | cons d t3 => intro hc; simp at hc
    have hpath : path = 'A' :: '.' :: (b ++ '.' :: ['C']) := by
      conv_lhs => rw [← joinDot_splitDot path, hS]
      rfl
    refine ⟨?_, ?_, ?_⟩
    · rw [List.isPrefixOf_iff_prefix, hpath]
      exact ⟨b ++ '.' :: ['C'], rfl⟩
    · rw [List.isSuffixOf_iff_suffix, hpath]
      have h2 : 'A' :: '.' :: (b ++ '.' :: ['C']) = ('A' :: '.' :: b) ++ toL ".C" := rfl
      rw [h2]
      exact List.suffix_append _ _
    · refine (matchPartsAC path).mpr ⟨b, ?_⟩
      rw [splitPathFast_eq, hS]
      simp [stripLastEmpty]
      decide

theorem trieAC_eq : trieAC =
    .mk [('A', .mk [('.', .mk [] [patternAC] true)] [] false)] [] false := rfl

theorem searchGo_trieAC_mem (path : Str) (q : Pattern)
    (hq : q ∈ TrieNode.searchGo trieAC path) : q = patternAC := by
  rw [trieAC_eq] at hq
  cases path with
  | nil => simp [TrieNode.searchGo] at hq
  | cons c rest =>
    by_cases hc : c = 'A'
    case neg => simp [TrieNode.searchGo, alookup, hc] at hq
    subst hc
    cases rest with
    | nil => simp [TrieNode.searchGo, alookup] at hq
    | cons d rest2 =>
      by_cases hd : d = '.'
      case neg => simp [TrieNode.searchGo, alookup, hd] at hq
      subst hd
      cases rest2 with
      | nil =>
        simp [TrieNode.searchGo, alookup] at hq
        exact hq
      | cons e2 rest3 =>
        simp [TrieNode.searchGo, alookup] at hq
        exact hq

theorem routerAC_eq : routerAC =
    { exactMatches := [], prefixTree := trieAC,
      suffixIndex := [(toL ".C", [patternAC])], patterns := [patternAC] } := rfl

theorem routeAC_suffix_mem (path : Str) (q : Pattern)
    (hq : q ∈ (match lastIndexDot path with
      | some i => if 0 < i then (alookup [(toL ".C", [patternAC])] (path.drop i)).getD []
                  else []
      | none => ([] : List Pattern))) : q = patternAC := by
  cases hld : lastIndexDot path with
  | none => rw [hld] at hq; simp at hq
  | some i =>
    rw [hld] at hq
    have hq' : q ∈ (if 0 < i then
        (alookup [(toL ".C", [patternAC])] (path.drop i)).getD [] else []) := hq
    by_cases hi : 0 < i
    · rw [if_pos hi] at hq'
      by_cases hkey : path.drop i = toL ".C"
      · simp [alookup, hkey] at hq'
        exact hq'
      · simp [alookup, hkey] at hq'
    · rw [if_neg hi] at hq'; simp at hq'

theorem routeAC_some_imp (path : Str) (q : Pattern)
    (h : FastRouter.Route routerAC path = some q) :
    q = patternAC ∧ matchPatternFast path patternAC = true := by
  have h' : (match (TrieNode.searchGo trieAC path).find? (fun p => matchPatternFast path p) with
      | some p => some p
      | none =>
        match (match lastIndexDot path with
            | some i =>
              if 0 < i then (alookup [(toL ".C", [patternAC])] (path.drop i)).getD []
              else []
            | none => ([] : List Pattern)).find? (fun p => matchPatternFast path p) with
        | some p => some p
        | none =>
          ([patternAC] : List Pattern).find? (fun p => matchPatternFast path p)) = some q := h
  cases hT : (TrieNode.searchGo trieAC path).find? (fun p => matchPatternFast path p) with
  | some q1 =>
    rw [hT] at h'
    have hq1 : q1 = q := Option.some.inj h'
    have heq := searchGo_trieAC_mem path q1 (List.mem_of_find?_eq_some hT)
    have hpred := List.find?_some hT
    exact ⟨hq1 ▸ heq, heq ▸ hpred⟩
  | none =>
    rw [hT] at h'
    cases hS : (match lastIndexDot path with
        | some i =>
          if 0 < i then (alookup [(toL ".C", [patternAC])] (path.drop i)).getD []
          else []
        | none => ([] : List Pattern)).find? (fun p => matchPatternFast path p) with
    | some q2 =>
      rw [hS] at h'
      have hq2 : q2 = q := Option.some.inj h'
      have heq := routeAC_suffix_mem path q2 (List.mem_of_find?_eq_some hS)
      have hpred := List.find?_some hS
      exact ⟨hq2 ▸ heq, heq ▸ hpred⟩
    | none =>
      rw [hS] at h'
      cases hF : ([patternAC] : List Pattern).find? (fun p => matchPatternFast path p) with
      | none => rw [hF] at h'; exact Option.noConfusion h'
      | some q3 =>
        rw [hF] at h'
        have hq3 : q3 = q := Option.some.inj h'
        have heq : q3 = patternAC := by simpa using List.mem_of_find?_eq_some hF
        have hpred := List.find?_some hF
        exact ⟨hq3 ▸ heq, heq ▸ hpred⟩

theorem routeAC_complete (path : Str) (hm : matchPatternFast path patternAC = true) :
    (FastRouter.Route routerAC path).isSome = true := by
  suffices hsuff : (match (TrieNode.searchGo trieAC path).find?
        (fun p => matchPatternFast path p) with
      | some p => some p
      | none =>
        match (match lastIndexDot path with
            | some i =>
              if 0 < i then (alookup [(toL ".C", [patternAC])] (path.drop i)).getD []
              else []
            | none => ([] : List Pattern)).find? (fun p => matchPatternFast path p) with
        | some p => some p
        | none =>
          ([patternAC] : List Pattern).find?
            (fun p => matchPatternFast path p)).isSome = true by exact hsuff
  cases hT : (TrieNode.searchGo trieAC path).find? (fun p => matchPatternFast path p) with
  | some q1 => simp
  | none =>
    cases hS : (match lastIndexDot path with
        | some i =>
          if 0 < i then (alookup [(toL ".C", [patternAC])] (path.drop i)).getD []
          else []
        | none => ([] : List Pattern)).find? (fun p => matchPatternFast path p) with
    | some q2 => simp
    | none => simp [List.find?, hm]

/-- C1: with the compiled `A.*.C` pattern registered, routing matches a
path exactly when the path splits on `'.'` into three segments with first
`"A"` and third `"C"`; the full verification predicate applied by every
tier coincides with that condition, `A.X.C` routes and `A.X.Y.C` does not. -/
theorem c1_wildcard_routing :
    (∀ path : Str,
      ((FastRouter.Route routerAC path).isSome = true ↔ condAC path = true)
      ∧ (matchPatternFast path patternAC = true ↔ condAC path = true))
    ∧ (FastRouter.Route routerAC (toL "A.X.C")).isSome = true
    ∧ FastRouter.Route routerAC (toL "A.X.Y.C") = none := by
  refine ⟨?_, rfl, rfl⟩
  intro path
  have h2 := matchAC_iff_cond path
  refine ⟨⟨?_, ?_⟩, h2⟩
  · intro h
    obtain ⟨q, hq⟩ := Option.isSome_iff_exists.mp h
    exact h2.mp (routeAC_some_imp path q hq).2
  · intro hc
    exact routeAC_complete path (h2.mpr hc)

end TrMap
